import Mathlib

/-!
Shallow embedding of the MerkleTree-JS repository (src/MerkleTree.js).

Byte buffers are modelled as `List Nat`; the SHA256 digest function is an
arbitrary parameter `sha256 : Bytes → Bytes`, since none of the verified
properties depend on the concrete hash. Hex-string comparison of digests in
the source (`buf.toString('hex') === ...`) is injective on byte buffers, so
it is modelled as equality of the digest byte lists. Thrown JS exceptions
are modelled with `Option`/`Except`.
-/

namespace MerkleJS

/-- Byte buffers (Node `Buffer`s) are lists of bytes, modelled as `List Nat`. -/
abbrev Bytes := List Nat

/-- Embedding of `class Node`: a wrapper around a byte payload `data`. -/
structure Node where
  data : Bytes
deriving DecidableEq, Repr

/-- Embedding of the `Node.hash` getter: `crypto.createHash('SHA256').update(this.data).digest()`. -/
def Node.hash (sha256 : Bytes → Bytes) (n : Node) : Bytes :=
  sha256 n.data

/-- Which side a proof sibling sits on; the source uses the strings
`'left'` and `'right'` for `hashPositionIndicator`. -/
inductive Side where
  | left
  | right
deriving DecidableEq, Repr

/-- Embedding of the objects pushed by `getProof`:
`{ hashPositionIndicator, sibling: layer[sibling] }`; `sibling` is `none`
when the index is out of range (JS `undefined`). -/
structure ProofStep where
  hashPositionIndicator : Side
  sibling : Option Node
deriving DecidableEq, Repr

/-- Embedding of one pass of the `for (iterator += 2)` loop in
`generateTree` (lines 41-57): pairs are hashed as
`new Node(Buffer.concat([left.hash, right.hash]))`; a trailing element with
no right sibling (`if (!right)`) is pushed unchanged. -/
def buildLayer (sha256 : Bytes → Bytes) : List Node → List Node
  | [] => []
  | [l] => [l]
  | l :: r :: rest => Node.mk (l.hash sha256 ++ r.hash sha256) :: buildLayer sha256 rest

/-- Embedding of the `while (this.layers.length < targetLayerNumber)` loop:
starting from the current layer, push `k` further layers, each built from
the previous one by `buildLayer`. -/
def layersFrom (sha256 : Bytes → Bytes) : Nat → List Node → List (List Node)
  | 0, cur => [cur]
  | k + 1, cur => cur :: layersFrom sha256 k (buildLayer sha256 cur)

/-- Embedding of `MerkleTree.generateTree`: layer 0 is the leaves and the
loop runs until `layers.length` reaches
`targetLayerNumber = Math.ceil(nodes.length / 2) + 1`, i.e. it performs
exactly `(nodes.length + 1) / 2` build steps. -/
def generateTree (sha256 : Bytes → Bytes) (nodes : List Node) : List (List Node) :=
  layersFrom sha256 ((nodes.length + 1) / 2) nodes

/-- Embedding of `class MerkleTree` state after the constructor ran:
`nodes` as passed in, `layers` filled by `generateTree`. -/
structure MerkleTree where
  nodes : List Node
  layers : List (List Node)
deriving DecidableEq, Repr

/-- Embedding of `new MerkleTree(nodes)`: the constructor stores the nodes
and immediately calls `generateTree` (it performs no emptiness check). -/
def MerkleTree.new (sha256 : Bytes → Bytes) (nodes : List Node) : MerkleTree :=
  { nodes := nodes, layers := generateTree sha256 nodes }

/-- Embedding of `getMerkleRoot`:
`this.layers[this.layers.length - 1][0].hash.toString('hex')`; `none` models
the JS TypeError when the top layer is missing or empty. -/
def MerkleTree.getMerkleRoot (sha256 : Bytes → Bytes) (t : MerkleTree) : Option Bytes :=
  t.layers.getLast?.bind fun top => top.head?.map (Node.hash sha256)

/-- Embedding of the linear search in `getProof` (lines 80-86): the first
index whose node digest equals the target digest, `none` when absent. -/
def findLeafIdx (sha256 : Bytes → Bytes) (target : Bytes) : List Node → Option Nat
  | [] => none
  | nd :: rest =>
      if nd.hash sha256 = target then some 0
      else (findLeafIdx sha256 target rest).map (· + 1)

/-- Embedding of the proof-walk loop in `getProof` (lines 104-153), which
runs over `this.layers[0] .. this.layers[this.layers.length - 2]`: at each
layer an even position records `hashPositionIndicator = 'right'` with
sibling `layer[i + 1]`, an odd position records `'left'` with sibling
`layer[i - 1]`, and the position then becomes `floor(i / 2)` (the source's
`i / 2` with the `Math.ceil(x) - 1` fixup for odd `i`). -/
def proofSteps : List (List Node) → Nat → List ProofStep
  | [], _ => []
  | layer :: rest, i =>
      (if i % 2 = 0 then ProofStep.mk Side.right layer[i + 1]?
       else ProofStep.mk Side.left layer[i - 1]?) :: proofSteps rest (i / 2)

/-- Embedding of `MerkleTree.getProof`: `none` models the thrown
`Error('Element not found: ...')`. -/
def MerkleTree.getProof (sha256 : Bytes → Bytes) (t : MerkleTree) (rawData : Bytes) :
    Option (List ProofStep) :=
  (findLeafIdx sha256 (sha256 rawData) t.nodes).map fun i =>
    proofSteps t.layers.dropLast i

/-- Embedding of the verification loop in `verify` (lines 208-231), folding
the running `data` node through the proof. A step whose indicator is
`'left'` reads `sibling.hash` unconditionally, so an absent sibling there is
the JS `TypeError`; on the `'right'` side `if (!sibling) continue` skips the
step. -/
def verifyGo (sha256 : Bytes → Bytes) : Node → List ProofStep → Except String Node
  | cur, [] => Except.ok cur
  | cur, s :: rest =>
      match s.hashPositionIndicator, s.sibling with
      | Side.left, none => Except.error "TypeError: cannot read hash of undefined"
      | Side.left, some sib =>
          verifyGo sha256 (Node.mk (sib.hash sha256 ++ cur.hash sha256)) rest
      | Side.right, none => verifyGo sha256 cur rest
      | Side.right, some sib =>
          verifyGo sha256 (Node.mk (cur.hash sha256 ++ sib.hash sha256)) rest

/-- Embedding of `MerkleTree.verify`: fold the proof from `new Node(rawData)`
and compare the final digest with the claimed root
(`data.hash.toString('hex') === merkleRoot`). -/
def MerkleTree.verify (sha256 : Bytes → Bytes) (rawData : Bytes)
    (proof : List ProofStep) (merkleRoot : Bytes) : Except String Bool :=
  (verifyGo sha256 (Node.mk rawData) proof).map fun nd =>
    decide (nd.hash sha256 = merkleRoot)

/-- Iterated layer building: `iterBuild k` applies `buildLayer` `k` times.
`generateTree`'s final layer is `iterBuild ((n + 1) / 2)` of the leaves. -/
def iterBuild (sha256 : Bytes → Bytes) : Nat → List Node → List Node
  | 0, cur => cur
  | k + 1, cur => iterBuild sha256 k (buildLayer sha256 cur)

/-- The non-root layers visited by the proof walk: the first `k` layers of
`layersFrom sha256 k`, i.e. everything but the top layer. -/
def walkLayers (sha256 : Bytes → Bytes) : Nat → List Node → List (List Node)
  | 0, _ => []
  | k + 1, cur => cur :: walkLayers sha256 k (buildLayer sha256 cur)

/-- Concrete injective stand-in hash used for witnesses and counterexamples. -/
def toyHash (b : Bytes) : Bytes := 0 :: b

/-- Seven concrete leaves, enough to reach the first tree shape in which the
construction loop keeps running after a layer of length one appears. -/
def sevenNodes : List Node :=
  [Node.mk [0], Node.mk [1], Node.mk [2], Node.mk [3],
   Node.mk [4], Node.mk [5], Node.mk [6]]

/-- One build pass halves the layer length, rounding up. -/
theorem buildLayer_length (sha256 : Bytes → Bytes) :
    ∀ cur : List Node, (buildLayer sha256 cur).length = (cur.length + 1) / 2
  | [] => rfl
  | [_] => by simp [buildLayer]
  | _ :: _ :: rest => by
      simp only [buildLayer, List.length_cons, buildLayer_length sha256 rest]
      omega

/-- Element `j` of a built layer: the pair `(2j, 2j+1)` hashed when both
exist, the unpaired node `2j` carried unchanged when only it exists. -/
theorem buildLayer_getElem (sha256 : Bytes → Bytes) :
    ∀ (cur : List Node) (j : Nat),
      (buildLayer sha256 cur)[j]? =
        match cur[2 * j]?, cur[2 * j + 1]? with
        | some l, some r => some (Node.mk (l.hash sha256 ++ r.hash sha256))
        | some l, none => some l
        | none, _ => none
  | [], j => by simp [buildLayer]
  | [l], 0 => by simp [buildLayer]
  | [l], j + 1 => by
      have h1 : ([l] : List Node)[2 * (j + 1)]? = none :=
        List.getElem?_eq_none (by simp; omega)
      simp [buildLayer, h1]
  | l :: r :: rest, 0 => by simp [buildLayer]
  | l :: r :: rest, j + 1 => by
      have ih := buildLayer_getElem sha256 rest j
      simp only [buildLayer]
      rw [show 2 * (j + 1) = 2 * j + 1 + 1 by omega]
      simp only [List.getElem?_cons_succ]
      exact ih

/-- The full layer ladder is the walked layers followed by the top layer. -/
theorem layersFrom_eq (sha256 : Bytes → Bytes) :
    ∀ (k : Nat) (cur : List Node),
      layersFrom sha256 k cur = walkLayers sha256 k cur ++ [iterBuild sha256 k cur]
  | 0, _ => rfl
  | k + 1, cur => by
      simp [layersFrom, walkLayers, iterBuild,
        layersFrom_eq sha256 k (buildLayer sha256 cur)]

/-- The proof walk visits exactly `k` layers. -/
theorem walkLayers_length (sha256 : Bytes → Bytes) :
    ∀ (k : Nat) (cur : List Node), (walkLayers sha256 k cur).length = k
  | 0, _ => rfl
  | k + 1, cur => by
      simp [walkLayers, walkLayers_length sha256 k (buildLayer sha256 cur)]

/-- The `j`-th walked layer is the `j`-fold build of the start layer. -/
theorem walkLayers_getElem (sha256 : Bytes → Bytes) :
    ∀ (k j : Nat) (cur : List Node), j < k →
      (walkLayers sha256 k cur)[j]? = some (iterBuild sha256 j cur)
  | k + 1, 0, cur, _ => by simp [walkLayers, iterBuild]
  | k + 1, j + 1, cur, h => by
      simp only [walkLayers, List.getElem?_cons_succ, iterBuild]
      exact walkLayers_getElem sha256 k j (buildLayer sha256 cur) (by omega)

/-- Building preserves nonemptiness. -/
theorem buildLayer_ne_nil (sha256 : Bytes → Bytes) (cur : List Node)
    (h : cur ≠ []) : buildLayer sha256 cur ≠ [] := by
  rw [← List.length_pos] at h ⊢
  have := buildLayer_length sha256 cur
  omega

/-- Enough build passes over a nonempty layer reach a layer of length one. -/
theorem iterBuild_length_one (sha256 : Bytes → Bytes) :
    ∀ (k : Nat) (cur : List Node), cur ≠ [] → cur.length ≤ 2 ^ k →
      (iterBuild sha256 k cur).length = 1
  | 0, cur, hne, hle => by
      rw [← List.length_pos] at hne
      show cur.length = 1
      simpa using by omega
  | k + 1, cur, hne, hle => by
      apply iterBuild_length_one sha256 k (buildLayer sha256 cur)
        (buildLayer_ne_nil sha256 cur hne)
      have h := buildLayer_length sha256 cur
      have h2 : (2 : Nat) ^ (k + 1) = 2 * 2 ^ k := by ring
      omega

/-- Numeric fact behind termination at the root: the number of build passes
the constructor performs suffices to collapse `n` leaves to one node. -/
theorem le_two_pow_half : ∀ n : Nat, n ≤ 2 ^ ((n + 1) / 2)
  | 0 => Nat.zero_le _
  | 1 => by norm_num
  | n + 2 => by
      have ih := le_two_pow_half n
      rw [show (n + 2 + 1) / 2 = (n + 1) / 2 + 1 by omega, pow_succ]
      rcases Nat.eq_zero_or_pos n with h | h
      · subst h; norm_num
      · have h3 : 2 ^ 1 ≤ 2 ^ ((n + 1) / 2) :=
          Nat.pow_le_pow_right (by norm_num) (by omega)
        have h4 : 2 ≤ 2 ^ ((n + 1) / 2) := by simpa using h3
        omega

/-- The linear search fails exactly when no node digest equals the target. -/
theorem findLeafIdx_eq_none (sha256 : Bytes → Bytes) (target : Bytes) :
    ∀ l : List Node,
      findLeafIdx sha256 target l = none ↔ ∀ nd ∈ l, nd.hash sha256 ≠ target
  | [] => by simp [findLeafIdx]
  | nd :: rest => by
      by_cases h : nd.hash sha256 = target
      · simp [findLeafIdx, h]
      · simp [findLeafIdx, h, findLeafIdx_eq_none sha256 target rest]

/-- A successful linear search returns the lowest matching index. -/
theorem findLeafIdx_eq_some (sha256 : Bytes → Bytes) (target : Bytes) :
    ∀ (l : List Node) (i : Nat), findLeafIdx sha256 target l = some i →
      ∃ nd, l[i]? = some nd ∧ nd.hash sha256 = target ∧
        ∀ j, j < i → ∀ nd', l[j]? = some nd' → nd'.hash sha256 ≠ target
  | [], i => by simp [findLeafIdx]
  | nd :: rest, i => by
      by_cases h : nd.hash sha256 = target
      · simp only [findLeafIdx, if_pos h, Option.some.injEq]
        rintro rfl
        exact ⟨nd, by simp, h, fun j hj => by omega⟩
      · simp only [findLeafIdx, if_neg h, Option.map_eq_some']
        rintro ⟨i', hi', rfl⟩
        obtain ⟨nd', hget, hhash, hfirst⟩ := findLeafIdx_eq_some sha256 target rest i' hi'
        refine ⟨nd', by simpa using hget, hhash, ?_⟩
        rintro (_ | j) hj nd'' hget''
        · simp only [List.getElem?_cons_zero, Option.some.injEq] at hget''
          exact hget'' ▸ h
        · exact hfirst j (by omega) nd'' (by simpa using hget'')

/-- If some node digest equals the target, the linear search succeeds. -/
theorem findLeafIdx_isSome (sha256 : Bytes → Bytes) (target : Bytes) :
    ∀ l : List Node, (∃ nd ∈ l, nd.hash sha256 = target) →
      ∃ i, findLeafIdx sha256 target l = some i
  | [], h => by simp at h
  | nd :: rest, h => by
      by_cases hh : nd.hash sha256 = target
      · exact ⟨0, by simp [findLeafIdx, hh]⟩
      · obtain ⟨nd', hmem, hhash⟩ := h
        rcases List.mem_cons.mp hmem with rfl | hmem'
        · exact absurd hhash hh
        · obtain ⟨i, hi⟩ := findLeafIdx_isSome sha256 target rest ⟨nd', hmem', hhash⟩
          exact ⟨i + 1, by simp [findLeafIdx, hh, hi]⟩

/-- A found index is in range. -/
theorem findLeafIdx_lt_length (sha256 : Bytes → Bytes) (target : Bytes)
    (l : List Node) (i : Nat) (h : findLeafIdx sha256 target l = some i) :
    i < l.length := by
  obtain ⟨nd, hget, -⟩ := findLeafIdx_eq_some sha256 target l i h
  exact (List.getElem?_eq_some.mp hget).1

/-- Shape of the steps produced by the proof walk: at the `j`-th walked
layer the running position is `i / 2^j`, it is in range, and the recorded
step is `'right'` with sibling `layer[pos + 1]` for an even position,
`'left'` with sibling `layer[pos - 1]` for an odd one. -/
theorem proofSteps_spec (sha256 : Bytes → Bytes) :
    ∀ (k : Nat) (cur : List Node) (i : Nat), i < cur.length →
      (proofSteps (walkLayers sha256 k cur) i).length = k ∧
      ∀ j, j < k →
        ∃ layer, (walkLayers sha256 k cur)[j]? = some layer ∧
          layer = iterBuild sha256 j cur ∧
          i / 2 ^ j < layer.length ∧
          (proofSteps (walkLayers sha256 k cur) i)[j]? =
            some (if (i / 2 ^ j) % 2 = 0 then
                    ProofStep.mk Side.right layer[i / 2 ^ j + 1]?
                  else ProofStep.mk Side.left layer[i / 2 ^ j - 1]?)
  | 0, cur, i, hi => by
      constructor
      · simp [walkLayers, proofSteps]
      · omega
  | k + 1, cur, i, hi => by
      have hlen := buildLayer_length sha256 cur
      have hnext : i / 2 < (buildLayer sha256 cur).length := by omega
      obtain ⟨ihlen, ihget⟩ :=
        proofSteps_spec sha256 k (buildLayer sha256 cur) (i / 2) hnext
      constructor
      · simp [walkLayers, proofSteps, ihlen]
      · rintro (_ | j) hj
        · refine ⟨cur, ?_, ?_, ?_, ?_⟩
          · simp [walkLayers]
          · simp [iterBuild]
          · simpa using hi
          · simp [walkLayers, proofSteps]
        · obtain ⟨layer, hlayer, hiter, hrange, hstep⟩ := ihget j (by omega)
          refine ⟨layer, ?_, ?_, ?_, ?_⟩
          · simpa [walkLayers] using hlayer
          · rw [hiter]; simp [iterBuild]
          · have : i / 2 ^ (j + 1) = i / 2 / 2 ^ j := by
              rw [Nat.div_div_eq_div_mul, pow_succ, Nat.mul_comm]
            omega
          · have hdiv : i / 2 ^ (j + 1) = i / 2 / 2 ^ j := by
              rw [Nat.div_div_eq_div_mul, pow_succ, Nat.mul_comm]
            simp only [walkLayers, proofSteps, List.getElem?_cons_succ, hdiv]
            exact hstep

/-- Main verification invariant: folding the walk's steps from any node
whose digest equals the digest of the node at position `i` of the start
layer succeeds and lands on a node whose digest equals the digest of the
node at position `i / 2^k` of the `k`-fold built layer. -/
theorem verifyGo_walk (sha256 : Bytes → Bytes) :
    ∀ (k : Nat) (cur : List Node) (c : Node) (i : Nat) (nd : Node),
      cur[i]? = some nd → c.hash sha256 = nd.hash sha256 →
      ∃ c' nd', (iterBuild sha256 k cur)[i / 2 ^ k]? = some nd' ∧
        verifyGo sha256 c (proofSteps (walkLayers sha256 k cur) i) =
          Except.ok c' ∧
        c'.hash sha256 = nd'.hash sha256
  | 0, cur, c, i, nd, hget, hhash => by
      refine ⟨c, nd, ?_, ?_, hhash⟩
      · simpa [iterBuild] using hget
      · simp [walkLayers, proofSteps, verifyGo]
  | k + 1, cur, c, i, nd, hget, hhash => by
      have hb := buildLayer_getElem sha256 cur (i / 2)
      have hdiv : i / 2 ^ (k + 1) = i / 2 / 2 ^ k := by
        rw [Nat.div_div_eq_div_mul, pow_succ, Nat.mul_comm]
      rcases Nat.even_or_odd i with he | ho
      · -- even position: recorded step is 'right' with sibling cur[i + 1]
        have hmod : i % 2 = 0 := Nat.even_iff.mp he
        have h2i : 2 * (i / 2) = i := by omega
        rw [h2i, hget] at hb
        cases hsib : cur[i + 1]? with
        | none =>
            -- lonely carry-over: the node moves up unchanged
            rw [hsib] at hb
            obtain ⟨c', nd', hget', hrun', hhash'⟩ :=
              verifyGo_walk sha256 k (buildLayer sha256 cur) c (i / 2) nd hb hhash
            refine ⟨c', nd', ?_, ?_, hhash'⟩
            · rw [hdiv]; simpa [iterBuild] using hget'
            · simp only [walkLayers, proofSteps, if_pos hmod, hsib, verifyGo]
              exact hrun'
        | some r =>
            rw [hsib] at hb
            obtain ⟨c', nd', hget', hrun', hhash'⟩ :=
              verifyGo_walk sha256 k (buildLayer sha256 cur)
                (Node.mk (c.hash sha256 ++ r.hash sha256)) (i / 2)
                (Node.mk (nd.hash sha256 ++ r.hash sha256)) hb
                (by have h := hhash; simp only [Node.hash] at h ⊢; rw [h])
            refine ⟨c', nd', ?_, ?_, hhash'⟩
            · rw [hdiv]; simpa [iterBuild] using hget'
            · simp only [walkLayers, proofSteps, if_pos hmod, hsib, verifyGo]
              exact hrun'
      · -- odd position: recorded step is 'left' with sibling cur[i - 1]
        have hmod : i % 2 = 1 := Nat.odd_iff.mp ho
        have h2i : 2 * (i / 2) = i - 1 := by omega
        have h2i1 : 2 * (i / 2) + 1 = i := by omega
        have hlt : i < cur.length := (List.getElem?_eq_some.mp hget).1
        have hl : ∃ l, cur[i - 1]? = some l := by
          have : i - 1 < cur.length := by omega
          exact ⟨cur[i - 1], List.getElem?_eq_some.mpr ⟨this, rfl⟩⟩
        obtain ⟨l, hsib⟩ := hl
        rw [h2i, show i - 1 + 1 = i by omega, hget, hsib] at hb
        obtain ⟨c', nd', hget', hrun', hhash'⟩ :=
          verifyGo_walk sha256 k (buildLayer sha256 cur)
            (Node.mk (l.hash sha256 ++ c.hash sha256)) (i / 2)
            (Node.mk (l.hash sha256 ++ nd.hash sha256)) hb
            (by have h := hhash; simp only [Node.hash] at h ⊢; rw [h])
        refine ⟨c', nd', ?_, ?_, hhash'⟩
        · rw [hdiv]; simpa [iterBuild] using hget'
        · have hne : ¬ i % 2 = 0 := by omega
          simp only [walkLayers, proofSteps, if_neg hne, hsib, verifyGo]
          exact hrun'

/-- Folding never errors when every step marked `'left'` carries a present
sibling; the error branch of `verifyGo` is the only one. -/
theorem verifyGo_total (sha256 : Bytes → Bytes) :
    ∀ (proof : List ProofStep) (c : Node),
      (∀ s ∈ proof, s.hashPositionIndicator = Side.left → s.sibling.isSome) →
      ∃ nd, verifyGo sha256 c proof = Except.ok nd
  | [], c, _ => ⟨c, by simp [verifyGo]⟩
  | s :: rest, c, h => by
      have hrest : ∀ s' ∈ rest, s'.hashPositionIndicator = Side.left →
          s'.sibling.isSome := fun s' hs' => h s' (List.mem_cons_of_mem s hs')
      cases hside : s.hashPositionIndicator with
      | left =>
          cases hsib : s.sibling with
          | none =>
              have := h s (List.mem_cons_self s rest) hside
              rw [hsib] at this
              simp at this
          | some sib =>
              obtain ⟨nd, hnd⟩ := verifyGo_total sha256 rest
                (Node.mk (sib.hash sha256 ++ c.hash sha256)) hrest
              exact ⟨nd, by simp only [verifyGo, hside, hsib]; exact hnd⟩
      | right =>
          cases hsib : s.sibling with
          | none =>
              obtain ⟨nd, hnd⟩ := verifyGo_total sha256 rest c hrest
              exact ⟨nd, by simp only [verifyGo, hside, hsib]; exact hnd⟩
          | some sib =>
              obtain ⟨nd, hnd⟩ := verifyGo_total sha256 rest
                (Node.mk (c.hash sha256 ++ sib.hash sha256)) hrest
              exact ⟨nd, by simp only [verifyGo, hside, hsib]; exact hnd⟩

/-- The first layer of the ladder is the start layer. -/
theorem layersFrom_getElem_zero (sha256 : Bytes → Bytes) (k : Nat)
    (cur : List Node) : (layersFrom sha256 k cur)[0]? = some cur := by
  cases k <;> simp [layersFrom]

/-- Each layer of the ladder after the first is built from its predecessor. -/
theorem layersFrom_getElem_succ (sha256 : Bytes → Bytes) :
    ∀ (k : Nat) (cur : List Node) (j : Nat), j + 1 ≤ k →
      (layersFrom sha256 k cur)[j + 1]? =
        ((layersFrom sha256 k cur)[j]?).map (buildLayer sha256)
  | 0, _, j, h => absurd h (by omega)
  | k + 1, cur, 0, _ => by
      simp [layersFrom, layersFrom_getElem_zero]
  | k + 1, cur, j + 1, h => by
      simp only [layersFrom, List.getElem?_cons_succ]
      exact layersFrom_getElem_succ sha256 k (buildLayer sha256 cur) j (by omega)

/-- C2, counterexample: the constructor performs no emptiness check; on the
empty leaf list it raises nothing and produces the layer ladder `[[]]` —
exactly the empty layer ladder the claim says must not be produced. -/
theorem emptyTree_counterexample :
    MerkleTree.new toyHash [] = { nodes := [], layers := [[]] } := by
  simp [MerkleTree.new, generateTree, layersFrom]

/-- C2 amended: tree construction with an empty leaf sequence raises no
error; for every hash function the constructor succeeds and produces the
single-element layer ladder `[[]]` (one empty layer, no root node). -/
theorem emptyTree_builds_empty_ladder (sha256 : Bytes → Bytes) :
    MerkleTree.new sha256 [] = { nodes := [], layers := [[]] } := by
  simp [MerkleTree.new, generateTree, layersFrom]

/-- C3, counterexample: on seven leaves the construction loop runs a fixed
`ceil(7 / 2) + 1 = 5` layers, so the ladder has layer lengths
`[7, 4, 2, 1, 1]`: the layer of length 1 at position 3 is fed back into the
layer builder to produce layer 4, and the top layer is not the first layer
of length 1. -/
theorem generateTree_seven_counterexample :
    (generateTree toyHash sevenNodes).map List.length = [7, 4, 2, 1, 1] ∧
    (generateTree toyHash sevenNodes)[4]? =
      ((generateTree toyHash sevenNodes)[3]?).map (buildLayer toyHash) := by
  constructor <;> decide

/-- C3 amended: for every non-empty leaf list the construction builds the
layers by repeated application of the layer builder starting from the
leaves, but terminates after a fixed iteration count — when
`ceil(n / 2) + 1` layers exist — rather than when a layer of length 1 is
produced. The top layer always has length 1, but it need not be the first
such layer: once a layer of length 1 appears early it is fed back into the
builder, which carries its single node unchanged. -/
theorem generateTree_fixed_iterations (sha256 : Bytes → Bytes)
    (nodes : List Node) (hne : nodes ≠ []) :
    (generateTree sha256 nodes).length = (nodes.length + 1) / 2 + 1 ∧
    (generateTree sha256 nodes)[0]? = some nodes ∧
    (∀ j, j + 1 < (generateTree sha256 nodes).length →
      (generateTree sha256 nodes)[j + 1]? =
        ((generateTree sha256 nodes)[j]?).map (buildLayer sha256)) ∧
    ((generateTree sha256 nodes).getLast?).map List.length = some 1 := by
  refine ⟨?_, ?_, ?_, ?_⟩
  · simp [generateTree, layersFrom_eq, walkLayers_length]
  · exact layersFrom_getElem_zero sha256 _ nodes
  · intro j hj
    apply layersFrom_getElem_succ
    have hlen : (generateTree sha256 nodes).length = (nodes.length + 1) / 2 + 1 := by
      simp [generateTree, layersFrom_eq, walkLayers_length]
    omega
  · have htop : (generateTree sha256 nodes).getLast? =
        some (iterBuild sha256 ((nodes.length + 1) / 2) nodes) := by
      simp [generateTree, layersFrom_eq]
    rw [htop]
    simp only [Option.map_some']
    exact congrArg some
      (iterBuild_length_one sha256 _ nodes hne (le_two_pow_half nodes.length))

/-- C3 amended, witness: the amended statement evaluated on the seven-leaf
tree. -/
theorem generateTree_fixed_iterations_witness :
    (generateTree toyHash sevenNodes).length = (sevenNodes.length + 1) / 2 + 1 ∧
    (generateTree toyHash sevenNodes)[0]? = some sevenNodes ∧
    (∀ j, j + 1 < (generateTree toyHash sevenNodes).length →
      (generateTree toyHash sevenNodes)[j + 1]? =
        ((generateTree toyHash sevenNodes)[j]?).map (buildLayer toyHash)) ∧
    ((generateTree toyHash sevenNodes).getLast?).map List.length = some 1 :=
  generateTree_fixed_iterations toyHash sevenNodes (by decide)

/-- C4: pairing rule of the layer builder — element `k` of the output layer
is the hash node of the consecutive pair `(layer[2k], layer[2k+1])` when
both exist (payload the byte-concatenation of the left digest then the
right digest, no separator; digest the hash of that concatenation), and the
unchanged left node when only it exists. -/
theorem buildLayer_pairing_rule (sha256 : Bytes → Bytes) (layer : List Node)
    (k : Nat) :
    ((buildLayer sha256 layer)[k]? =
      match layer[2 * k]?, layer[2 * k + 1]? with
      | some l, some r => some (Node.mk (l.hash sha256 ++ r.hash sha256))
      | some l, none => some l
      | none, _ => none) ∧
    ∀ l r : Node,
      Node.hash sha256 (Node.mk (l.hash sha256 ++ r.hash sha256)) =
        sha256 (l.hash sha256 ++ r.hash sha256) :=
  ⟨buildLayer_getElem sha256 layer k, fun _ _ => rfl⟩

/-- C5: a single-leaf tree has layers `[[leaf], [leaf]]`, its root is the
digest of the leaf payload itself (no rehashing, no self-pairing), and the
leaf verifies against its generated proof and that root. -/
theorem singleLeaf_tree (sha256 : Bytes → Bytes) (leaf : Node) :
    generateTree sha256 [leaf] = [[leaf], [leaf]] ∧
    (MerkleTree.new sha256 [leaf]).getMerkleRoot sha256 = some (sha256 leaf.data) ∧
    ∃ proof, (MerkleTree.new sha256 [leaf]).getProof sha256 leaf.data = some proof ∧
      MerkleTree.verify sha256 leaf.data proof (sha256 leaf.data) =
        Except.ok true := by
  have hgen : generateTree sha256 [leaf] = [[leaf], [leaf]] := by
    simp [generateTree, layersFrom, buildLayer]
  refine ⟨hgen, ?_, ?_⟩
  · simp [MerkleTree.new, MerkleTree.getMerkleRoot, hgen, Node.hash]
  · refine ⟨[ProofStep.mk Side.right none], ?_, ?_⟩
    · simp [MerkleTree.new, MerkleTree.getProof, hgen, findLeafIdx, Node.hash,
        proofSteps]
    · simp [MerkleTree.verify, verifyGo, Node.hash, Except.map]

/-- C9, counterexample: a proof step marked `'left'` whose sibling is absent
makes `verify` dereference `undefined` — the embedded error branch — instead
of returning a boolean, so verification is not total. -/
theorem verify_left_absent_counterexample :
    MerkleTree.verify toyHash [0] [ProofStep.mk Side.left none] [] =
      Except.error "TypeError: cannot read hash of undefined" := rfl

/-- C9 amended: verification never raises and returns a boolean provided
every step marked `'left'` carries a present sibling (true of all generated
proofs); a step marked `'left'` with an absent sibling instead raises a
TypeError. An invalid-but-well-formed proof, wrong root, or tampered
payload simply yields a boolean verdict. -/
theorem verify_total_of_left_present (sha256 : Bytes → Bytes)
    (rawData : Bytes) (proof : List ProofStep) (merkleRoot : Bytes)
    (h : ∀ s ∈ proof, s.hashPositionIndicator = Side.left → s.sibling.isSome) :
    ∃ b : Bool, MerkleTree.verify sha256 rawData proof merkleRoot =
      Except.ok b := by
  obtain ⟨nd, hnd⟩ := verifyGo_total sha256 proof (Node.mk rawData) h
  refine ⟨decide (Node.hash sha256 nd = merkleRoot), ?_⟩
  rw [MerkleTree.verify, hnd]
  rfl

/-- C9 amended, witness: a concrete well-formed proof on which verification
returns a boolean. -/
theorem verify_total_of_left_present_witness :
    ∃ b : Bool,
      MerkleTree.verify toyHash [0]
        [ProofStep.mk Side.right none,
         ProofStep.mk Side.left (some (Node.mk [1]))] [2] = Except.ok b :=
  verify_total_of_left_present toyHash [0]
    [ProofStep.mk Side.right none, ProofStep.mk Side.left (some (Node.mk [1]))]
    [2] (by decide)

/-- C1: self-consistency round trip — for every hash function and every
non-empty ordered list of distinct payloads, building the tree and then,
for each payload in the list, verifying it against its generated proof and
the tree's root returns `true`. -/
theorem roundTrip_verify (sha256 : Bytes → Bytes) (P : List Bytes)
    (hne : P ≠ []) (_hdist : P.Nodup) (p : Bytes) (hp : p ∈ P) :
    ∃ proof root,
      (MerkleTree.new sha256 (P.map Node.mk)).getProof sha256 p = some proof ∧
      (MerkleTree.new sha256 (P.map Node.mk)).getMerkleRoot sha256 = some root ∧
      MerkleTree.verify sha256 p proof root = Except.ok true := by
  set nodes := P.map Node.mk with hnodes
  have hnodes_ne : nodes ≠ [] := by
    simp [hnodes, hne]
  have hmem : Node.mk p ∈ nodes := List.mem_map_of_mem Node.mk hp
  obtain ⟨i, hfind⟩ := findLeafIdx_isSome sha256 (sha256 p) nodes
    ⟨Node.mk p, hmem, rfl⟩
  obtain ⟨nd, hget, hhash, -⟩ := findLeafIdx_eq_some sha256 (sha256 p) nodes i hfind
  set k := (nodes.length + 1) / 2 with hk
  have hdrop : (generateTree sha256 nodes).dropLast = walkLayers sha256 k nodes := by
    rw [generateTree, layersFrom_eq, ← hk, List.dropLast_concat]
  have hproof : (MerkleTree.new sha256 nodes).getProof sha256 p =
      some (proofSteps (walkLayers sha256 k nodes) i) := by
    simp [MerkleTree.new, MerkleTree.getProof, hfind, hdrop]
  have htoplen : (iterBuild sha256 k nodes).length = 1 :=
    iterBuild_length_one sha256 k nodes hnodes_ne (le_two_pow_half nodes.length)
  obtain ⟨r, hr⟩ := List.length_eq_one.mp htoplen
  have hglast : (generateTree sha256 nodes).getLast? =
      some (iterBuild sha256 k nodes) := by
    rw [generateTree, layersFrom_eq, ← hk, List.getLast?_concat]
  have hroot : (MerkleTree.new sha256 nodes).getMerkleRoot sha256 =
      some (r.hash sha256) := by
    simp [MerkleTree.new, MerkleTree.getMerkleRoot, hglast, hr]
  obtain ⟨c', nd', hget', hrun, hhash'⟩ :=
    verifyGo_walk sha256 k nodes (Node.mk p) i nd hget
      (by simpa [Node.hash] using hhash.symm)
  have hik : i / 2 ^ k = 0 :=
    Nat.div_eq_of_lt (lt_of_lt_of_le
      (findLeafIdx_lt_length sha256 (sha256 p) nodes i hfind)
      (le_two_pow_half nodes.length))
  rw [hik, hr] at hget'
  have hnd' : nd' = r := by simpa using hget'.symm
  refine ⟨_, _, hproof, hroot, ?_⟩
  rw [MerkleTree.verify, hrun]
  show Except.ok (decide (c'.hash sha256 = r.hash sha256)) = Except.ok true
  rw [hhash', hnd']
  simp

/-- C1, witness: the round trip evaluated on a concrete three-payload tree. -/
theorem roundTrip_verify_witness :
    ∃ proof root,
      (MerkleTree.new toyHash ([[0], [1], [2]].map Node.mk)).getProof
        toyHash [2] = some proof ∧
      (MerkleTree.new toyHash ([[0], [1], [2]].map Node.mk)).getMerkleRoot
        toyHash = some root ∧
      MerkleTree.verify toyHash [2] proof root = Except.ok true :=
  roundTrip_verify toyHash [[0], [1], [2]] (by decide) (by decide) [2] (by decide)

/-- C6: proof lookup fails exactly when no leaf digest equals the digest of
the requested payload, and otherwise walks from the first (lowest-index)
leaf whose digest matches — comparison is by digest equality, never by
payload equality. -/
theorem getProof_lookup (sha256 : Bytes → Bytes) (t : MerkleTree) (raw : Bytes) :
    (t.getProof sha256 raw = none ↔
      ∀ nd ∈ t.nodes, nd.hash sha256 ≠ sha256 raw) ∧
    ∀ i, findLeafIdx sha256 (sha256 raw) t.nodes = some i →
      t.getProof sha256 raw = some (proofSteps t.layers.dropLast i) ∧
      ∃ nd, t.nodes[i]? = some nd ∧ nd.hash sha256 = sha256 raw ∧
        ∀ j, j < i → ∀ nd', t.nodes[j]? = some nd' →
          nd'.hash sha256 ≠ sha256 raw := by
  constructor
  · rw [MerkleTree.getProof, Option.map_eq_none']
    exact findLeafIdx_eq_none sha256 (sha256 raw) t.nodes
  · intro i hi
    exact ⟨by simp [MerkleTree.getProof, hi],
      findLeafIdx_eq_some sha256 (sha256 raw) t.nodes i hi⟩

/-- C6, witness: on a one-leaf tree a payload with a non-matching digest is
reported not found. -/
theorem getProof_lookup_witness :
    (MerkleTree.new toyHash [Node.mk [0]]).getProof toyHash [5] = none :=
  (getProof_lookup toyHash (MerkleTree.new toyHash [Node.mk [0]]) [5]).1.mpr
    (by decide)

/-- C7: shape of a generated proof — one step per non-root layer, in
bottom-up order; at layer `j` the running position is `i / 2^j` and is in
range; an even position records side `'right'` with sibling at `pos + 1`
(possibly absent), an odd position records side `'left'` with sibling at
`pos - 1`, which always exists. -/
theorem getProof_walk_shape (sha256 : Bytes → Bytes) (nodes : List Node)
    (raw : Bytes) (i : Nat)
    (hfind : findLeafIdx sha256 (sha256 raw) nodes = some i) :
    ∃ proof, (MerkleTree.new sha256 nodes).getProof sha256 raw = some proof ∧
      proof.length = (MerkleTree.new sha256 nodes).layers.length - 1 ∧
      ∀ j, j < proof.length →
        ∃ layer, (MerkleTree.new sha256 nodes).layers[j]? = some layer ∧
          i / 2 ^ j < layer.length ∧
          proof[j]? = some (if (i / 2 ^ j) % 2 = 0 then
                ProofStep.mk Side.right layer[i / 2 ^ j + 1]?
              else ProofStep.mk Side.left layer[i / 2 ^ j - 1]?) ∧
          ((i / 2 ^ j) % 2 = 1 → (layer[i / 2 ^ j - 1]?).isSome) := by
  have hi : i < nodes.length := findLeafIdx_lt_length sha256 (sha256 raw) nodes i hfind
  set k := (nodes.length + 1) / 2 with hk
  have hdrop : (generateTree sha256 nodes).dropLast = walkLayers sha256 k nodes := by
    rw [generateTree, layersFrom_eq, ← hk, List.dropLast_concat]
  obtain ⟨hlen, hsteps⟩ := proofSteps_spec sha256 k nodes i hi
  refine ⟨proofSteps (walkLayers sha256 k nodes) i, ?_, ?_, ?_⟩
  · simp [MerkleTree.new, MerkleTree.getProof, hfind, hdrop]
  · rw [hlen]
    simp [MerkleTree.new, generateTree, layersFrom_eq, ← hk, walkLayers_length]
  · intro j hj
    rw [hlen] at hj
    obtain ⟨layer, hlayer, -, hrange, hstep⟩ := hsteps j hj
    refine ⟨layer, ?_, hrange, hstep, ?_⟩
    · have hwlen : (walkLayers sha256 k nodes).length = k :=
        walkLayers_length sha256 k nodes
      simp only [MerkleTree.new, generateTree, layersFrom_eq, ← hk]
      rw [List.getElem?_append, if_pos (by omega)]
      exact hlayer
    · intro hodd
      generalize hm : i / 2 ^ j = m at hodd hrange
      have hlt : m - 1 < layer.length := by omega
      simp [List.getElem?_eq_getElem hlt]

/-- C7, witness: the walk-shape statement evaluated at leaf index 3 of the
seven-leaf tree. -/
theorem getProof_walk_shape_witness :
    ∃ proof, (MerkleTree.new toyHash sevenNodes).getProof toyHash [3] =
        some proof ∧
      proof.length = (MerkleTree.new toyHash sevenNodes).layers.length - 1 ∧
      ∀ j, j < proof.length →
        ∃ layer, (MerkleTree.new toyHash sevenNodes).layers[j]? = some layer ∧
          3 / 2 ^ j < layer.length ∧
          proof[j]? = some (if (3 / 2 ^ j) % 2 = 0 then
                ProofStep.mk Side.right layer[3 / 2 ^ j + 1]?
              else ProofStep.mk Side.left layer[3 / 2 ^ j - 1]?) ∧
          ((3 / 2 ^ j) % 2 = 1 → (layer[3 / 2 ^ j - 1]?).isSome) :=
  getProof_walk_shape toyHash sevenNodes [3] 3 (by decide)

/-- Modelled from the spec: the verifier fold of §4.5 stated at digest
level — start from the payload digest; a `'left'` step with a present
sibling hashes sibling-digest-then-current, a `'right'` step with a present
sibling hashes current-then-sibling-digest, and an absent sibling leaves
the current digest unchanged. This definition follows the spec's words and
exists only to be compared with the embedded `MerkleTree.verify`. -/
def specVerifierFold (sha256 : Bytes → Bytes) : Bytes → List ProofStep → Bytes
  | cur, [] => cur
  | cur, s :: rest =>
      match s.hashPositionIndicator, s.sibling with
      | Side.left, some sib =>
          specVerifierFold sha256 (sha256 (sib.hash sha256 ++ cur)) rest
      | Side.right, some sib =>
          specVerifierFold sha256 (sha256 (cur ++ sib.hash sha256)) rest
      | _, none => specVerifierFold sha256 cur rest

/-- The embedded fold agrees, digest for digest, with the spec-level fold
on every proof whose `'left'` steps carry present siblings. -/
theorem verifyGo_specFold (sha256 : Bytes → Bytes) :
    ∀ (proof : List ProofStep) (c : Node),
      (∀ s ∈ proof, s.hashPositionIndicator = Side.left → s.sibling.isSome) →
      ∃ nd, verifyGo sha256 c proof = Except.ok nd ∧
        nd.hash sha256 = specVerifierFold sha256 (c.hash sha256) proof
  | [], c, _ => ⟨c, by simp [verifyGo], by simp [specVerifierFold]⟩
  | s :: rest, c, h => by
      have hrest : ∀ s' ∈ rest, s'.hashPositionIndicator = Side.left →
          s'.sibling.isSome := fun s' hs' => h s' (List.mem_cons_of_mem s hs')
      cases hside : s.hashPositionIndicator with
      | left =>
          cases hsib : s.sibling with
          | none =>
              have := h s (List.mem_cons_self s rest) hside
              rw [hsib] at this
              simp at this
          | some sib =>
              obtain ⟨nd, hnd, hfold⟩ := verifyGo_specFold sha256 rest
                (Node.mk (sib.hash sha256 ++ c.hash sha256)) hrest
              refine ⟨nd, ?_, ?_⟩
              · simp only [verifyGo, hside, hsib]
                exact hnd
              · simp only [specVerifierFold, hside, hsib]
                simpa [Node.hash] using hfold
      | right =>
          cases hsib : s.sibling with
          | none =>
              obtain ⟨nd, hnd, hfold⟩ := verifyGo_specFold sha256 rest c hrest
              refine ⟨nd, ?_, ?_⟩
              · simp only [verifyGo, hside, hsib]
                exact hnd
              · simp only [specVerifierFold, hside, hsib]
                exact hfold
          | some sib =>
              obtain ⟨nd, hnd, hfold⟩ := verifyGo_specFold sha256 rest
                (Node.mk (c.hash sha256 ++ sib.hash sha256)) hrest
              refine ⟨nd, ?_, ?_⟩
              · simp only [verifyGo, hside, hsib]
                exact hnd
              · simp only [specVerifierFold, hside, hsib]
                simpa [Node.hash] using hfold

/-- C8: on every proof whose `'left'` steps carry present siblings — the
only case the claim's step rules describe — `verify` returns exactly the
boolean saying whether the spec's digest-level fold of the proof, started
from the payload digest, equals the claimed root (byte-exact comparison). -/
theorem verify_implements_spec_fold (sha256 : Bytes → Bytes) (rawData : Bytes)
    (proof : List ProofStep) (merkleRoot : Bytes)
    (h : ∀ s ∈ proof, s.hashPositionIndicator = Side.left → s.sibling.isSome) :
    MerkleTree.verify sha256 rawData proof merkleRoot =
      Except.ok (decide
        (specVerifierFold sha256 (sha256 rawData) proof = merkleRoot)) := by
  obtain ⟨nd, hrun, hfold⟩ := verifyGo_specFold sha256 proof (Node.mk rawData) h
  rw [MerkleTree.verify, hrun]
  show Except.ok (decide (nd.hash sha256 = merkleRoot)) = _
  rw [hfold]
  rfl

/-- C8, witness: the fold equation evaluated on a concrete two-step proof
with a lonely carry-over step. -/
theorem verify_implements_spec_fold_witness :
    MerkleTree.verify toyHash [0]
      [ProofStep.mk Side.right (some (Node.mk [1])),
       ProofStep.mk Side.right none] [2] =
      Except.ok (decide (specVerifierFold toyHash (toyHash [0])
        [ProofStep.mk Side.right (some (Node.mk [1])),
         ProofStep.mk Side.right none] = [2])) :=
  verify_implements_spec_fold toyHash [0]
    [ProofStep.mk Side.right (some (Node.mk [1])), ProofStep.mk Side.right none]
    [2] (by decide)

/-- C10: every generated proof is well-formed for the verifier — each step
whose side indicator is `'left'` carries a present sibling (absent siblings
occur only in `'right'` steps), and consequently verifying a generated
proof against any claimed root never dereferences a missing sibling and
returns a boolean. -/
theorem getProof_wellFormed (sha256 : Bytes → Bytes) (nodes : List Node)
    (raw : Bytes) (proof : List ProofStep)
    (h : (MerkleTree.new sha256 nodes).getProof sha256 raw = some proof) :
    (∀ s ∈ proof, s.hashPositionIndicator = Side.left → s.sibling.isSome) ∧
    ∀ merkleRoot, ∃ b : Bool,
      MerkleTree.verify sha256 raw proof merkleRoot = Except.ok b := by
  rw [MerkleTree.getProof, Option.map_eq_some'] at h
  obtain ⟨i, hfind, hproof⟩ := h
  have hi : i < nodes.length := findLeafIdx_lt_length sha256 (sha256 raw) nodes i hfind
  set k := (nodes.length + 1) / 2 with hk
  have hdrop : (MerkleTree.new sha256 nodes).layers.dropLast =
      walkLayers sha256 k nodes := by
    simp only [MerkleTree.new]
    rw [generateTree, layersFrom_eq, ← hk, List.dropLast_concat]
  rw [hdrop] at hproof
  obtain ⟨hlen, hsteps⟩ := proofSteps_spec sha256 k nodes i hi
  have hleft : ∀ s ∈ proof, s.hashPositionIndicator = Side.left →
      s.sibling.isSome := by
    intro s hs hside
    obtain ⟨j, hj, hgetj⟩ := List.mem_iff_getElem.mp hs
    have hjk : j < k := by rw [← hproof, hlen] at hj; exact hj
    obtain ⟨layer, -, -, hrange, hstep⟩ := hsteps j hjk
    have hstep' : proof[j]? = some (if (i / 2 ^ j) % 2 = 0 then
        ProofStep.mk Side.right layer[i / 2 ^ j + 1]?
      else ProofStep.mk Side.left layer[i / 2 ^ j - 1]?) := by
      rw [← hproof]; exact hstep
    have hs_eq : s = (if (i / 2 ^ j) % 2 = 0 then
        ProofStep.mk Side.right layer[i / 2 ^ j + 1]?
      else ProofStep.mk Side.left layer[i / 2 ^ j - 1]?) := by
      have h1 : proof[j]? = some s := by rw [List.getElem?_eq_getElem hj, hgetj]
      rw [h1] at hstep'
      simpa using hstep'
    by_cases hpar : (i / 2 ^ j) % 2 = 0
    · rw [if_pos hpar] at hs_eq
      rw [hs_eq] at hside
      simp at hside
    · rw [if_neg hpar] at hs_eq
      generalize hm : i / 2 ^ j = m at hpar hrange hs_eq
      have hlt : m - 1 < layer.length := by omega
      rw [hs_eq]
      simp [List.getElem?_eq_getElem hlt]
  refine ⟨hleft, fun merkleRoot => ?_⟩
  obtain ⟨nd, hnd⟩ := verifyGo_total sha256 proof (Node.mk raw) hleft
  refine ⟨decide (Node.hash sha256 nd = merkleRoot), ?_⟩
  rw [MerkleTree.verify, hnd]
  rfl

/-- C10, witness: well-formedness of the concrete generated proof for leaf
payload `[3]` of the seven-leaf tree, whose last step is a lonely
carry-over. -/
theorem getProof_wellFormed_witness :
    (∀ s ∈ [ProofStep.mk Side.left (some (Node.mk [2])),
            ProofStep.mk Side.left (some (Node.mk [0, 0, 0, 1])),
            ProofStep.mk Side.right (some (Node.mk [0, 0, 4, 0, 5, 0, 6])),
            ProofStep.mk Side.right none],
        s.hashPositionIndicator = Side.left → s.sibling.isSome) ∧
    ∀ merkleRoot, ∃ b : Bool,
      MerkleTree.verify toyHash [3]
        [ProofStep.mk Side.left (some (Node.mk [2])),
         ProofStep.mk Side.left (some (Node.mk [0, 0, 0, 1])),
         ProofStep.mk Side.right (some (Node.mk [0, 0, 4, 0, 5, 0, 6])),
         ProofStep.mk Side.right none] merkleRoot = Except.ok b :=
  getProof_wellFormed toyHash sevenNodes [3]
    [ProofStep.mk Side.left (some (Node.mk [2])),
     ProofStep.mk Side.left (some (Node.mk [0, 0, 0, 1])),
     ProofStep.mk Side.right (some (Node.mk [0, 0, 4, 0, 5, 0, 6])),
     ProofStep.mk Side.right none] (by decide)

end MerkleJS
